import Mathlib

/-!
Verification development for the revision sampling and report bookkeeping
subsystem of the VaRA tool suite.  Pure models of the sampler, the report
filename grammar, the churn calculator, the zipped report folder, the
revision-binary map and the TEF report aggregation are stated and proved
against the documented behaviour.
-/

namespace Vara

/-- Outcome of one processing attempt for one revision/config. -/
inductive FileStatusExtension where
  | success
  | blocked
  | compileError
  | failed
  | missing
deriving DecidableEq

/-- Modelled from the spec: the candidate filter of the revision sampler
(`VersionExperiment.sample` in `varats/experiment/experiment_util.py`, which
is not part of the provided sources).  A non-empty whitelist keeps only
revisions whose latest status is whitelisted and short-circuits the
blacklist; otherwise a non-empty blacklist removes blacklisted revisions. -/
def sampleCandidates (wl bl : List FileStatusExtension)
    (tag : String → FileStatusExtension) (revs : List String) : List String :=
  if wl ≠ [] then revs.filter (fun r => decide (tag r ∈ wl))
  else if bl ≠ [] then revs.filter (fun r => decide (tag r ∉ bl))
  else revs

/-- Modelled from the spec: the revision sampler.  Without "full" sampling it
returns the first revision of the input list; with "full" sampling it filters
by status, optionally shuffles, and then applies the sample limit. -/
def sample (full randomOrder : Bool) (wl bl : List FileStatusExtension)
    (limit : Option Nat) (shuffle : List String → List String)
    (tag : String → FileStatusExtension) (revs : List String) : List String :=
  if full then
    let cands := sampleCandidates wl bl tag revs
    let cands2 := if randomOrder then shuffle cands else cands
    match limit with
    | none => cands2
    | some n => cands2.take n
  else revs.take 1

/-- C1: when the whitelist and the blacklist both contain the status of a
revision in the input list, the revision is selected anyway: the whitelist
takes precedence over the blacklist. -/
theorem whitelist_overrides_blacklist
    (wl bl : List FileStatusExtension) (shuffle : List String → List String)
    (tag : String → FileStatusExtension) (revs : List String) (rev : String)
    (hrev : rev ∈ revs) (hwl : tag rev ∈ wl) (hbl : tag rev ∈ bl) :
    rev ∈ sample true false wl bl none shuffle tag revs := by
  have hne : wl ≠ [] := by
    intro h; subst h; exact (List.not_mem_nil _ hwl)
  simp only [sample, sampleCandidates, if_pos hne, if_true, Bool.false_eq_true,
    if_false]
  exact List.mem_filter.mpr ⟨hrev, by simpa using hwl⟩

/-- Witness for C1 at a concrete input. -/
theorem whitelist_overrides_blacklist_witness :
    "r4" ∈ sample true false [FileStatusExtension.failed]
      [FileStatusExtension.failed] none id
      (fun r => if r = "r4" then FileStatusExtension.failed
                else FileStatusExtension.success)
      ["r1", "r2", "r3", "r4", "r5"] :=
  whitelist_overrides_blacklist
    [FileStatusExtension.failed] [FileStatusExtension.failed] id
    (fun r => if r = "r4" then FileStatusExtension.failed
              else FileStatusExtension.success)
    ["r1", "r2", "r3", "r4", "r5"] "r4"
    (by decide) (by decide) (by decide)

/-- C3: with no whitelist, no blacklist, and no "full" sampling, the sampler
returns exactly the first revision of a non-empty input list. -/
theorem sample_default_is_first (randomOrder : Bool) (limit : Option Nat)
    (shuffle : List String → List String)
    (tag : String → FileStatusExtension) (revs : List String)
    (hne : revs ≠ []) :
    sample false randomOrder [] [] limit shuffle tag revs = [revs.head hne] := by
  cases revs with
  | nil => exact absurd rfl hne
  | cons r rs => simp [sample]

/-- Witness for C3 at a concrete input. -/
theorem sample_default_is_first_witness :
    sample false false [] [] none id (fun _ => FileStatusExtension.missing)
      ["r1", "r2", "r3"] = ["r1"] :=
  sample_default_is_first false none id (fun _ => FileStatusExtension.missing)
    ["r1", "r2", "r3"] (by decide)

/-- C4: with "full" sampling, no randomization, no whitelist, no limit, and a
non-empty blacklist, the sampler returns exactly the revisions whose status
is not blacklisted, as an order-preserving sublist of the input. -/
theorem sample_blacklist_filters (bl : List FileStatusExtension)
    (shuffle : List String → List String)
    (tag : String → FileStatusExtension) (revs : List String)
    (hbl : bl ≠ []) :
    sample true false [] bl none shuffle tag revs
        = revs.filter (fun r => decide (tag r ∉ bl))
      ∧ (sample true false [] bl none shuffle tag revs).Sublist revs
      ∧ ∀ r, r ∈ sample true false [] bl none shuffle tag revs
          ↔ r ∈ revs ∧ tag r ∉ bl := by
  have h1 : sample true false [] bl none shuffle tag revs
      = revs.filter (fun r => decide (tag r ∉ bl)) := by
    simp [sample, sampleCandidates, hbl]
  refine ⟨h1, ?_, ?_⟩
  · rw [h1]; exact List.filter_sublist revs
  · intro r
    rw [h1]
    constructor
    · intro hr
      rcases List.mem_filter.mp hr with ⟨hmem, hdec⟩
      exact ⟨hmem, of_decide_eq_true hdec⟩
    · intro ⟨hmem, hnb⟩
      exact List.mem_filter.mpr ⟨hmem, decide_eq_true hnb⟩

/-- Witness for C4 at a concrete input. -/
theorem sample_blacklist_filters_witness :
    sample true false []
        [FileStatusExtension.success, FileStatusExtension.failed,
         FileStatusExtension.blocked] none id
        (fun r =>
          if r = "r1" then FileStatusExtension.success
          else if r = "r2" then FileStatusExtension.blocked
          else if r = "r3" then FileStatusExtension.compileError
          else if r = "r4" then FileStatusExtension.failed
          else FileStatusExtension.missing)
        ["r1", "r2", "r3", "r4", "r5"]
      = ["r3", "r5"] := by
  have h := sample_blacklist_filters
    [FileStatusExtension.success, FileStatusExtension.failed,
     FileStatusExtension.blocked] id
    (fun r =>
      if r = "r1" then FileStatusExtension.success
      else if r = "r2" then FileStatusExtension.blocked
      else if r = "r3" then FileStatusExtension.compileError
      else if r = "r4" then FileStatusExtension.failed
      else FileStatusExtension.missing)
    ["r1", "r2", "r3", "r4", "r5"] (by decide)
  rw [h.1]
  decide

/-- Join a list of character lists with a single separator character. -/
def joinSep (c : Char) : List (List Char) → List Char
  | [] => []
  | [p] => p
  | p :: q :: rest => p ++ c :: joinSep c (q :: rest)

/-- Split a character list at every occurrence of the separator. -/
def splitOnChar (c : Char) : List Char → List (List Char)
  | [] => [[]]
  | x :: xs =>
    match splitOnChar c xs with
    | [] => [[x]]
    | r :: rs => if x = c then [] :: r :: rs else (x :: r) :: rs

theorem splitOnChar_not_mem (c : Char) (p : List Char) (h : c ∉ p) :
    splitOnChar c p = [p] := by
  induction p with
  | nil => rfl
  | cons x xs ih =>
    have hx : ¬x = c := fun hxc => h (hxc ▸ List.mem_cons_self x xs)
    have hxs : c ∉ xs := fun hm => h (List.mem_cons_of_mem x hm)
    simp [splitOnChar, ih hxs, hx]

theorem splitOnChar_ne_nil (c : Char) (t : List Char) : splitOnChar c t ≠ [] := by
  cases t with
  | nil => simp [splitOnChar]
  | cons x xs =>
    rw [splitOnChar]
    cases splitOnChar c xs with
    | nil => simp
    | cons r rs =>
      by_cases hx : x = c <;> simp [hx]

theorem splitOnChar_append_cons (c : Char) (p t : List Char) (h : c ∉ p) :
    splitOnChar c (p ++ c :: t) = p :: splitOnChar c t := by
  induction p with
  | nil =>
    show splitOnChar c (c :: t) = [] :: splitOnChar c t
    have hne : splitOnChar c t ≠ [] := splitOnChar_ne_nil c t
    cases hsp : splitOnChar c t with
    | nil => exact absurd hsp hne
    | cons r rs => simp [splitOnChar, hsp]
  | cons x xs ih =>
    have hx : ¬x = c := fun hxc => h (hxc ▸ List.mem_cons_self x xs)
    have hxs : c ∉ xs := fun hm => h (List.mem_cons_of_mem x hm)
    show splitOnChar c (x :: (xs ++ c :: t)) = (x :: xs) :: splitOnChar c t
    rw [splitOnChar, ih hxs]
    simp [hx]

theorem splitOnChar_joinSep (c : Char) (l : List (List Char)) (hne : l ≠ [])
    (hfree : ∀ p ∈ l, c ∉ p) : splitOnChar c (joinSep c l) = l := by
  induction l with
  | nil => exact absurd rfl hne
  | cons p tail ih =>
    cases tail with
    | nil => exact splitOnChar_not_mem c p (hfree p (List.mem_cons_self _ _))
    | cons q rest =>
      show splitOnChar c (p ++ c :: joinSep c (q :: rest)) = p :: q :: rest
      rw [splitOnChar_append_cons c p _ (hfree p (List.mem_cons_self _ _))]
      rw [ih (by simp) (fun r hr => hfree r (List.mem_cons_of_mem p hr))]

theorem not_mem_joinSep {c sep : Char} (hcs : c ≠ sep) (l : List (List Char))
    (h : ∀ p ∈ l, c ∉ p) : c ∉ joinSep sep l := by
  induction l with
  | nil => simp [joinSep]
  | cons p tail ih =>
    cases tail with
    | nil => exact h p (List.mem_cons_self _ _)
    | cons q rest =>
      show c ∉ p ++ sep :: joinSep sep (q :: rest)
      intro hmem
      rcases List.mem_append.mp hmem with hp | hrest
      · exact h p (List.mem_cons_self _ _) hp
      · rcases List.mem_cons.mp hrest with hc | hj
        · exact hcs hc
        · exact ih (fun r hr => h r (List.mem_cons_of_mem p hr)) hj

/-- Decimal digit characters used by the filename grammar. -/
def digitChar : Nat → Char
  | 0 => '0'
  | 1 => '1'
  | 2 => '2'
  | 3 => '3'
  | 4 => '4'
  | 5 => '5'
  | 6 => '6'
  | 7 => '7'
  | 8 => '8'
  | _ => '9'

/-- Render a natural number as its most-significant-first decimal digits. -/
def natToChars (n : Nat) : List Char :=
  (Nat.digits 10 n).reverse.map digitChar

/-- Read one decimal digit back from a character. -/
def charToDigit (ch : Char) : Option Nat :=
  if 48 ≤ ch.toNat ∧ ch.toNat ≤ 57 then some (ch.toNat - 48) else none

/-- Read a most-significant-first decimal digit string back as a number. -/
def charsToNat (l : List Char) : Option Nat :=
  l.foldl
    (fun acc ch =>
      match acc, charToDigit ch with
      | some a, some d => some (a * 10 + d)
      | _, _ => none)
    (some 0)

theorem charToDigit_digitChar (d : Nat) (hd : d < 10) :
    charToDigit (digitChar d) = some d := by
  interval_cases d <;> decide

theorem charsToNat_go (l : List Char) (ds : List Nat) (a : Nat)
    (hds : ∀ d ∈ ds, d < 10) (hl : l = (ds.map digitChar).reverse) :
    (l.foldl
      (fun acc ch =>
        match acc, charToDigit ch with
        | some a, some d => some (a * 10 + d)
        | _, _ => none)
      (some a))
    = some (a * 10 ^ ds.length + Nat.ofDigits 10 ds) := by
  induction ds generalizing l a with
  | nil => subst hl; simp [Nat.ofDigits]
  | cons d rest ih =>
    subst hl
    rw [List.map_cons, List.reverse_cons, List.foldl_append]
    rw [ih _ a (fun e he => hds e (List.mem_cons_of_mem d he)) rfl]
    have hd : d < 10 := hds d (List.mem_cons_self _ _)
    simp only [List.foldl_cons, List.foldl_nil, charToDigit_digitChar d hd]
    rw [Nat.ofDigits_cons, List.length_cons, pow_succ]
    congr 1
    ring

theorem charsToNat_natToChars (n : Nat) : charsToNat (natToChars n) = some n := by
  have h := charsToNat_go (natToChars n) (Nat.digits 10 n) 0
    (fun d hd => Nat.digits_lt_base (by norm_num) hd)
    (by simp [natToChars])
  rw [charsToNat, h, Nat.ofDigits_digits]
  simp

theorem mem_natToChars (n : Nat) (ch : Char) (h : ch ∈ natToChars n) :
    ∃ d, d < 10 ∧ ch = digitChar d := by
  rcases List.mem_map.mp (by simpa [natToChars] using h) with ⟨d, hd, rfl⟩
  exact ⟨d, Nat.digits_lt_base (by norm_num) hd, rfl⟩

theorem natToChars_free (n : Nat) (c : Char) (hc : c.toNat < 48 ∨ 57 < c.toNat) :
    c ∉ natToChars n := by
  intro hmem
  rcases mem_natToChars n c hmem with ⟨d, hd, hch⟩
  subst hch
  interval_cases d <;> revert hc <;> decide

/-- Delimiter characters of the result filename grammar. -/
def dashChar : Char := '-'

def underChar : Char := '_'

def dotChar : Char := '.'

/-- Suffix encoding a file status in a result filename. -/
def statusSuffix : FileStatusExtension → List Char
  | .success => 's' :: 'u' :: 'c' :: 'c' :: 'e' :: 's' :: 's' :: []
  | .blocked => 'b' :: 'l' :: 'o' :: 'c' :: 'k' :: 'e' :: 'd' :: []
  | .compileError => 'c' :: 'e' :: 'r' :: 'r' :: 'o' :: 'r' :: []
  | .failed => 'f' :: 'a' :: 'i' :: 'l' :: 'e' :: 'd' :: []
  | .missing => 'm' :: 'i' :: 's' :: 's' :: 'i' :: 'n' :: 'g' :: []

/-- Recover a file status from its filename suffix. -/
def statusOfSuffix (l : List Char) : Option FileStatusExtension :=
  if l = statusSuffix .success then some .success
  else if l = statusSuffix .blocked then some .blocked
  else if l = statusSuffix .compileError then some .compileError
  else if l = statusSuffix .failed then some .failed
  else if l = statusSuffix .missing then some .missing
  else none

theorem statusOfSuffix_statusSuffix (s : FileStatusExtension) :
    statusOfSuffix (statusSuffix s) = some s := by
  cases s <;> decide

theorem statusSuffix_free (s : FileStatusExtension) (c : Char)
    (hc : c = dashChar ∨ c = underChar ∨ c = dotChar) :
    c ∉ statusSuffix s := by
  rcases hc with rfl | rfl | rfl <;> cases s <;> decide

/-- Modelled from the spec: the structured fields of a result filename
(`ReportFilename` in `varats/report/report.py`, which is not part of the
provided sources).  String-valued fields are character lists. -/
structure ReportFilename where
  experiment_shorthand : List Char
  report_shorthand : List Char
  project_name : List Char
  binary_name : List Char
  revision : List Char
  config_id : Option Nat
  run_uuid : List Char
  file_status : FileStatusExtension
  file_type : List Char
deriving DecidableEq

/-- A field is valid when it avoids all three grammar delimiters. -/
def fieldFree (l : List Char) : Prop :=
  dashChar ∉ l ∧ underChar ∉ l ∧ dotChar ∉ l

instance (l : List Char) : Decidable (fieldFree l) := by
  unfold fieldFree; infer_instance

/-- A filename field tuple is valid when every string field is free of the
delimiter characters. -/
def ReportFilename.valid (f : ReportFilename) : Prop :=
  fieldFree f.experiment_shorthand ∧ fieldFree f.report_shorthand ∧
  fieldFree f.project_name ∧ fieldFree f.binary_name ∧
  fieldFree f.revision ∧ fieldFree f.run_uuid ∧ fieldFree f.file_type

instance (f : ReportFilename) : Decidable f.valid := by
  unfold ReportFilename.valid; infer_instance

/-- Modelled from the spec: the revision/config/uuid tail of the filename,
joined with underscores; the config id appears only when present. -/
def ReportFilename.tailPart (f : ReportFilename) : List (List Char) :=
  match f.config_id with
  | none => [f.revision, f.run_uuid]
  | some n => [f.revision, natToChars n, f.run_uuid]

/-- Modelled from the spec: generate the delimiter-based filename encoding
`exp-report-project-binary-revision[_configid]_uuid.status.filetype`. -/
def ReportFilename.generate (f : ReportFilename) : List Char :=
  let tail := joinSep underChar f.tailPart
  let stem := joinSep dashChar
    [f.experiment_shorthand, f.report_shorthand, f.project_name,
     f.binary_name, tail]
  joinSep dotChar [stem, statusSuffix f.file_status, f.file_type]

/-- Modelled from the spec: parse a filename back into its fields, failing on
any string that does not follow the grammar. -/
def ReportFilename.parse (l : List Char) : Option ReportFilename :=
  match splitOnChar dotChar l with
  | [stem, suff, ftype] =>
    match statusOfSuffix suff with
    | none => none
    | some st =>
      match splitOnChar dashChar stem with
      | [e, r, p, b, tail] =>
        match splitOnChar underChar tail with
        | [rev, uuid] => some ⟨e, r, p, b, rev, none, uuid, st, ftype⟩
        | [rev, cfg, uuid] =>
          match charsToNat cfg with
          | none => none
          | some n => some ⟨e, r, p, b, rev, some n, uuid, st, ftype⟩
        | _ => none
      | _ => none
  | _ => none

theorem natToChars_fieldFree (n : Nat) : fieldFree (natToChars n) :=
  ⟨natToChars_free n dashChar (Or.inl (by decide)),
   natToChars_free n underChar (Or.inr (by decide)),
   natToChars_free n dotChar (Or.inl (by decide))⟩

theorem tailPart_free (f : ReportFilename) (hf : f.valid) (c : Char)
    (hc : c = dashChar ∨ c = underChar ∨ c = dotChar) :
    ∀ p ∈ f.tailPart, c ∉ p := by
  intro p hp
  have hrev := hf.2.2.2.2.1
  have huuid := hf.2.2.2.2.2.1
  have hfree : ∀ q : List Char, fieldFree q → c ∉ q := by
    intro q hq
    rcases hc with rfl | rfl | rfl
    · exact hq.1
    · exact hq.2.1
    · exact hq.2.2
  unfold ReportFilename.tailPart at hp
  cases hcfg : f.config_id with
  | none =>
    rw [hcfg] at hp
    simp only [List.mem_cons, List.not_mem_nil, or_false] at hp
    rcases hp with rfl | rfl
    · exact hfree _ hrev
    · exact hfree _ huuid
  | some n =>
    rw [hcfg] at hp
    simp only [List.mem_cons, List.not_mem_nil, or_false] at hp
    rcases hp with rfl | rfl | rfl
    · exact hfree _ hrev
    · exact hfree _ (natToChars_fieldFree n)
    · exact hfree _ huuid

/-- C2: the filename encoding round-trips, for valid field tuples, with the
config id both absent and present; parsing recovers the exact fields, so the
two cases are distinguishable on parse. -/
theorem parse_generate_roundtrip (f : ReportFilename) (hf : f.valid) :
    ReportFilename.parse f.generate = some f := by
  have htail : ∀ c, (c = dashChar ∨ c = underChar ∨ c = dotChar) →
      ∀ p ∈ f.tailPart, c ∉ p := fun c hc => tailPart_free f hf c hc
  have htail_ne : f.tailPart ≠ [] := by
    unfold ReportFilename.tailPart
    cases f.config_id <;> simp
  have hstem_parts : ∀ c, (c = dashChar ∨ c = dotChar) →
      ∀ p ∈ [f.experiment_shorthand, f.report_shorthand, f.project_name,
             f.binary_name, joinSep underChar f.tailPart], c ∉ p := by
    intro c hc p hp
    have hfree : ∀ q : List Char, fieldFree q → c ∉ q := by
      intro q hq
      rcases hc with rfl | rfl
      · exact hq.1
      · exact hq.2.2
    have hcu : c ≠ underChar := by
      rcases hc with rfl | rfl <;> decide
    simp only [List.mem_cons, List.not_mem_nil, or_false] at hp
    rcases hp with rfl | rfl | rfl | rfl | rfl
    · exact hfree _ hf.1
    · exact hfree _ hf.2.1
    · exact hfree _ hf.2.2.1
    · exact hfree _ hf.2.2.2.1
    · exact not_mem_joinSep hcu _
        (htail c (by rcases hc with rfl | rfl <;> simp))
  have hstem := splitOnChar_joinSep dashChar
    [f.experiment_shorthand, f.report_shorthand, f.project_name,
     f.binary_name, joinSep underChar f.tailPart]
    (by simp) (hstem_parts dashChar (Or.inl rfl))
  have hdot_parts : ∀ p ∈ [joinSep dashChar
      [f.experiment_shorthand, f.report_shorthand, f.project_name,
       f.binary_name, joinSep underChar f.tailPart],
      statusSuffix f.file_status, f.file_type], dotChar ∉ p := by
    intro p hp
    simp only [List.mem_cons, List.not_mem_nil, or_false] at hp
    rcases hp with rfl | rfl | rfl
    · exact not_mem_joinSep (by decide) _ (hstem_parts dotChar (Or.inr rfl))
    · exact statusSuffix_free f.file_status dotChar (by simp)
    · exact hf.2.2.2.2.2.2.2.2
  have hdot := splitOnChar_joinSep dotChar
    [joinSep dashChar
      [f.experiment_shorthand, f.report_shorthand, f.project_name,
       f.binary_name, joinSep underChar f.tailPart],
     statusSuffix f.file_status, f.file_type] (by simp) hdot_parts
  have hunder := splitOnChar_joinSep underChar f.tailPart htail_ne
    (htail underChar (Or.inr (Or.inl rfl)))
  rw [ReportFilename.generate, ReportFilename.parse]
  rw [hdot]
  simp only [statusOfSuffix_statusSuffix, hstem, hunder]
  cases hcfg : f.config_id with
  | none =>
    simp only [ReportFilename.tailPart, hcfg]
    rw [← hcfg]
  | some n =>
    simp only [ReportFilename.tailPart, hcfg, charsToNat_natToChars]
    rw [← hcfg]

/-- Witness for C2: concrete round trips with the config id absent and
present. -/
theorem parse_generate_roundtrip_witness :
    ReportFilename.parse
        (ReportFilename.generate
          ⟨['m', 'o', 'c', 'k'], ['C', 'R'], ['p', 'r', 'j'], ['f', 'o', 'o'],
           ['r', 'e', 'v', '1'], none, ['u', '4', '2'],
           FileStatusExtension.success, ['t', 'x', 't']⟩)
      = some
          ⟨['m', 'o', 'c', 'k'], ['C', 'R'], ['p', 'r', 'j'], ['f', 'o', 'o'],
           ['r', 'e', 'v', '1'], none, ['u', '4', '2'],
           FileStatusExtension.success, ['t', 'x', 't']⟩
    ∧ ReportFilename.parse
        (ReportFilename.generate
          ⟨['m', 'o', 'c', 'k'], ['C', 'R'], ['p', 'r', 'j'], ['f', 'o', 'o'],
           ['r', 'e', 'v', '1'], some 42, ['u', '4', '2'],
           FileStatusExtension.failed, ['t', 'x', 't']⟩)
      = some
          ⟨['m', 'o', 'c', 'k'], ['C', 'R'], ['p', 'r', 'j'], ['f', 'o', 'o'],
           ['r', 'e', 'v', '1'], some 42, ['u', '4', '2'],
           FileStatusExtension.failed, ['t', 'x', 't']⟩ :=
  ⟨parse_generate_roundtrip _ (by decide), parse_generate_roundtrip _ (by decide)⟩

/-- Language groupings of source-file extensions used by the churn
calculator. -/
inductive ChurnLanguage where
  | c
  | cpp
deriving DecidableEq

/-- File extensions belonging to each churn language. -/
def extensionsOf : ChurnLanguage → List (List Char)
  | .c => [['c'], ['h']]
  | .cpp => [['c', 'p', 'p'], ['c', 'x', 'x'], ['h', 'p', 'p'], ['h', 'x', 'x']]

/-- Modelled from the spec: `ChurnConfig` from `varats/utils/git_util.py`,
which is not part of the provided sources: a set of enabled languages plus an
include-everything flag. -/
structure ChurnConfig where
  include_everything : Bool
  enabled_languages : List ChurnLanguage
deriving DecidableEq

/-- Decide whether files with the given extension count toward churn. -/
def ChurnConfig.is_enabled (cfg : ChurnConfig) (ext : List Char) : Bool :=
  cfg.include_everything
    || cfg.enabled_languages.any (fun lang => decide (ext ∈ extensionsOf lang))

/-- One file's diff inside a commit: its extension and line counts. -/
structure FileDiff where
  extension : List Char
  insertions : Nat
  deletions : Nat
deriving DecidableEq

/-- Accumulate one file diff into (files_changed, insertions, deletions). -/
def churnStep (cfg : ChurnConfig) (acc : Nat × Nat × Nat) (d : FileDiff) :
    Nat × Nat × Nat :=
  if cfg.is_enabled d.extension then
    (acc.1 + 1, acc.2.1 + d.insertions, acc.2.2 + d.deletions)
  else acc

/-- Modelled from the spec: `calc_commit_code_churn` from
`varats/utils/git_util.py`, which is not part of the provided sources: sum the
per-file counts of a commit's diff over the files enabled by the config. -/
def calc_commit_code_churn (cfg : ChurnConfig) (diffs : List FileDiff) :
    Nat × Nat × Nat :=
  diffs.foldl (churnStep cfg) (0, 0, 0)

theorem churn_foldl_disabled (cfg : ChurnConfig) (ds : List FileDiff)
    (acc : Nat × Nat × Nat) (hds : ∀ e ∈ ds, cfg.is_enabled e.extension = false) :
    ds.foldl (churnStep cfg) acc = acc := by
  induction ds generalizing acc with
  | nil => rfl
  | cons e rest ih =>
    have he : cfg.is_enabled e.extension = false := hds e (List.mem_cons_self _ _)
    rw [List.foldl_cons]
    rw [show churnStep cfg acc e = acc by simp [churnStep, he]]
    exact ih acc (fun d hd => hds d (List.mem_cons_of_mem e hd))

theorem churn_foldl_filter (cfg : ChurnConfig) (ds : List FileDiff)
    (acc : Nat × Nat × Nat) :
    ds.foldl (churnStep cfg) acc
      = (ds.filter (fun e => cfg.is_enabled e.extension)).foldl
          (churnStep cfg) acc := by
  induction ds generalizing acc with
  | nil => rfl
  | cons e rest ih =>
    by_cases he : cfg.is_enabled e.extension = true
    · rw [List.foldl_cons, List.filter_cons]
      simp only [he, if_true]
      rw [List.foldl_cons]
      exact ih _
    · have he' : cfg.is_enabled e.extension = false := by
        simpa using he
      rw [List.foldl_cons, List.filter_cons]
      simp only [he', Bool.false_eq_true, if_false]
      rw [show churnStep cfg acc e = acc by simp [churnStep, he']]
      exact ih acc

/-- C5: single-commit churn counts only enabled files; a commit changing one
enabled file by 2 insertions and 2 deletions yields (1, 2, 2), non-enabled
files contribute nothing to any counter, and with include_everything every
file is enabled. -/
theorem commit_churn_counts_enabled_files (cfg : ChurnConfig) (d : FileDiff)
    (ds : List FileDiff) (hd : cfg.is_enabled d.extension = true)
    (hins : d.insertions = 2) (hdel : d.deletions = 2)
    (hds : ∀ e ∈ ds, cfg.is_enabled e.extension = false) :
    calc_commit_code_churn cfg (d :: ds) = (1, 2, 2)
    ∧ (∀ diffs : List FileDiff,
        calc_commit_code_churn cfg diffs
          = calc_commit_code_churn cfg
              (diffs.filter (fun e => cfg.is_enabled e.extension)))
    ∧ (cfg.include_everything = true →
        ∀ ext : List Char, cfg.is_enabled ext = true) := by
  refine ⟨?_, ?_, ?_⟩
  · rw [calc_commit_code_churn, List.foldl_cons]
    rw [show churnStep cfg (0, 0, 0) d = (1, 2, 2) by
      simp [churnStep, hd, hins, hdel]]
    exact churn_foldl_disabled cfg ds (1, 2, 2) hds
  · intro diffs
    exact churn_foldl_filter cfg diffs (0, 0, 0)
  · intro hie ext
    simp [ChurnConfig.is_enabled, hie]

/-- Witness for C5 at a concrete input: a c-style-language config, one cpp
file with 2 insertions and 2 deletions, and one non-enabled file. -/
theorem commit_churn_counts_enabled_files_witness :
    calc_commit_code_churn ⟨false, [ChurnLanguage.c, ChurnLanguage.cpp]⟩
        (⟨['c', 'p', 'p'], 2, 2⟩ :: [⟨['t', 'x', 't'], 7, 5⟩])
      = (1, 2, 2) :=
  (commit_churn_counts_enabled_files
    ⟨false, [ChurnLanguage.c, ChurnLanguage.cpp]⟩
    ⟨['c', 'p', 'p'], 2, 2⟩ [⟨['t', 'x', 't'], 7, 5⟩]
    (by decide) rfl rfl (by decide)).1

/-- Boolean lexicographic strict order on character lists, the string order
used for commit hashes and repository names. -/
def lexLt : List Char → List Char → Bool
  | [], [] => false
  | [], _ :: _ => true
  | _ :: _, [] => false
  | a :: as, b :: bs => decide (a < b) || (decide (a = b) && lexLt as bs)

theorem lexLt_irrefl (l : List Char) : lexLt l l = false := by
  induction l with
  | nil => rfl
  | cons a as ih => simp [lexLt, ih, lt_irrefl]

theorem lexLt_trans :
    ∀ a b c : List Char, lexLt a b = true → lexLt b c = true → lexLt a c = true
  | [], [], _, hab, _ => by simp [lexLt] at hab
  | [], _ :: _, [], _, hbc => by simp [lexLt] at hbc
  | [], _ :: _, _ :: _, _, _ => by simp [lexLt]
  | _ :: _, [], _, hab, _ => by simp [lexLt] at hab
  | _ :: _, _ :: _, [], _, hbc => by simp [lexLt] at hbc
  | x :: xs, y :: ys, z :: zs, hab, hbc => by
    simp only [lexLt, Bool.or_eq_true, Bool.and_eq_true,
      decide_eq_true_eq] at hab hbc ⊢
    rcases hab with hxy | ⟨hxy, hrest⟩
    · rcases hbc with hyz | ⟨hyz, _⟩
      · exact Or.inl (lt_trans hxy hyz)
      · exact Or.inl (hyz ▸ hxy)
    · rcases hbc with hyz | ⟨hyz, hrest2⟩
      · exact Or.inl (hxy ▸ hyz)
      · exact Or.inr ⟨hxy.trans hyz, lexLt_trans xs ys zs hrest hrest2⟩

theorem lexLt_asymm (a b : List Char) (h : lexLt a b = true) :
    lexLt b a = false := by
  by_contra hc
  have h2 : lexLt b a = true := by simpa using hc
  have h3 := lexLt_trans a b a h h2
  rw [lexLt_irrefl] at h3
  exact absurd h3 (by simp)

theorem lexLt_connex :
    ∀ a b : List Char, a ≠ b → lexLt a b = true ∨ lexLt b a = true
  | [], [], h => absurd rfl h
  | [], _ :: _, _ => Or.inl (by simp [lexLt])
  | _ :: _, [], _ => Or.inr (by simp [lexLt])
  | x :: xs, y :: ys, h => by
    rcases lt_trichotomy x y with hxy | hxy | hxy
    · left; simp [lexLt, hxy]
    · subst hxy
      have hne : xs ≠ ys := fun he => h (he ▸ rfl)
      rcases lexLt_connex xs ys hne with hl | hl
      · left; simp [lexLt, hl]
      · right; simp [lexLt, hl]
    · right; simp [lexLt, hxy]

/-- Modelled from the spec: `CommitRepoPair` from `varats/utils/git_util.py`,
which is not part of the provided sources: a commit hash together with the
name of the repository it belongs to. -/
structure CommitRepoPair where
  commit_hash : List Char
  repository_name : List Char
deriving DecidableEq

/-- An operand a CommitRepoPair can be compared against: another pair or a
value of an unrelated type such as an integer. -/
inductive CmpOperand where
  | pair (p : CommitRepoPair)
  | intVal (n : Int)
deriving DecidableEq

/-- Equality comparison of a pair against an arbitrary operand: fields must
agree and the operand must itself be a pair. -/
def CommitRepoPair.eqOp (p : CommitRepoPair) (o : CmpOperand) : Bool :=
  match o with
  | .pair q =>
    decide (p.commit_hash = q.commit_hash)
      && decide (p.repository_name = q.repository_name)
  | .intVal _ => false

/-- Less-than comparison of a pair against an arbitrary operand:
lexicographic by (commit_hash, repository_name), false for non-pairs. -/
def CommitRepoPair.ltOp (p : CommitRepoPair) (o : CmpOperand) : Bool :=
  match o with
  | .pair q =>
    if p.commit_hash = q.commit_hash then
      lexLt p.repository_name q.repository_name
    else lexLt p.commit_hash q.commit_hash
  | .intVal _ => false

/-- C8: pair comparison is a total order, lexicographic by
(commit_hash, repository_name): equality holds iff both fields agree, equal
repository names order by commit hash, the order is irreflexive, transitive
and connected, and comparing against an integer yields false for both
equality and less-than instead of raising. -/
theorem commit_repo_pair_total_order (p q r : CommitRepoPair) (n : Int) :
    (p.eqOp (.pair q) = true ↔ p = q)
    ∧ (p.repository_name = q.repository_name →
        lexLt p.commit_hash q.commit_hash = true → p.ltOp (.pair q) = true)
    ∧ p.ltOp (.pair p) = false
    ∧ (p.ltOp (.pair q) = true → q.ltOp (.pair r) = true →
        p.ltOp (.pair r) = true)
    ∧ (p ≠ q → p.ltOp (.pair q) = true ∨ q.ltOp (.pair p) = true)
    ∧ p.eqOp (.intVal n) = false
    ∧ p.ltOp (.intVal n) = false := by
  refine ⟨?_, ?_, ?_, ?_, ?_, rfl, rfl⟩
  · cases p; cases q
    simp [CommitRepoPair.eqOp, and_comm]
  · intro _ hlt
    have hne : p.commit_hash ≠ q.commit_hash := by
      intro he
      rw [he, lexLt_irrefl] at hlt
      exact absurd hlt (by simp)
    simp [CommitRepoPair.ltOp, hne, hlt]
  · simp [CommitRepoPair.ltOp, lexLt_irrefl]
  · intro hpq hqr
    by_cases h1 : p.commit_hash = q.commit_hash
    · rw [CommitRepoPair.ltOp, if_pos h1] at hpq
      by_cases h2 : q.commit_hash = r.commit_hash
      · rw [CommitRepoPair.ltOp, if_pos h2] at hqr
        rw [CommitRepoPair.ltOp, if_pos (h1.trans h2)]
        exact lexLt_trans _ _ _ hpq hqr
      · rw [CommitRepoPair.ltOp, if_neg h2] at hqr
        have h3 : p.commit_hash ≠ r.commit_hash := fun he => h2 (h1 ▸ he)
        rw [CommitRepoPair.ltOp, if_neg h3, h1]
        exact hqr
    · rw [CommitRepoPair.ltOp, if_neg h1] at hpq
      by_cases h2 : q.commit_hash = r.commit_hash
      · have h3 : p.commit_hash ≠ r.commit_hash := fun he => h1 (he.trans h2.symm)
        rw [CommitRepoPair.ltOp, if_neg h3, ← h2]
        exact hpq
      · rw [CommitRepoPair.ltOp, if_neg h2] at hqr
        have h4 := lexLt_trans _ _ _ hpq hqr
        have h3 : p.commit_hash ≠ r.commit_hash := by
          intro he
          rw [he, lexLt_irrefl] at h4
          exact absurd h4 (by simp)
        rw [CommitRepoPair.ltOp, if_neg h3]
        exact h4
  · intro hne
    by_cases h1 : p.commit_hash = q.commit_hash
    · have hrep : p.repository_name ≠ q.repository_name := by
        intro he
        apply hne
        cases p; cases q
        simp only at h1 he
        simp [h1, he]
      rcases lexLt_connex _ _ hrep with hl | hl
      · left; simp [CommitRepoPair.ltOp, h1, hl]
      · right; simp [CommitRepoPair.ltOp, h1.symm, hl]
    · rcases lexLt_connex _ _ h1 with hl | hl
      · left; simp [CommitRepoPair.ltOp, h1, hl]
      · right
        have h1' : q.commit_hash ≠ p.commit_hash := fun he => h1 he.symm
        simp [CommitRepoPair.ltOp, h1', hl]

/-- Witness for C8 at concrete inputs: a smaller hash with an equal
repository name is less, and comparisons against the integer 42 are false. -/
theorem commit_repo_pair_total_order_witness :
    CommitRepoPair.ltOp ⟨['4', '1'], ['f', 'o', 'o']⟩
        (CmpOperand.pair ⟨['4', '2'], ['f', 'o', 'o']⟩) = true
    ∧ CommitRepoPair.eqOp ⟨['4', '1'], ['f', 'o', 'o']⟩ (CmpOperand.intVal 42)
        = false
    ∧ CommitRepoPair.ltOp ⟨['4', '1'], ['f', 'o', 'o']⟩ (CmpOperand.intVal 42)
        = false :=
  ⟨(commit_repo_pair_total_order ⟨['4', '1'], ['f', 'o', 'o']⟩
      ⟨['4', '2'], ['f', 'o', 'o']⟩ ⟨['4', '2'], ['f', 'o', 'o']⟩ 42).2.1
      rfl (by decide),
   (commit_repo_pair_total_order ⟨['4', '1'], ['f', 'o', 'o']⟩
      ⟨['4', '2'], ['f', 'o', 'o']⟩ ⟨['4', '2'], ['f', 'o', 'o']⟩ 42).2.2.2.2.2.1,
   (commit_repo_pair_total_order ⟨['4', '1'], ['f', 'o', 'o']⟩
      ⟨['4', '2'], ['f', 'o', 'o']⟩ ⟨['4', '2'], ['f', 'o', 'o']⟩ 42).2.2.2.2.2.2⟩

/-- One file inside a report folder: its path relative to the staging root
and its content, both as byte lists. -/
structure FileEntry where
  rel_path : List Nat
  content : List Nat
deriving DecidableEq

/-- Encode one length-prefixed byte chunk of the archive. -/
def encodeChunk (l : List Nat) : List Nat :=
  l.length :: l

/-- Encode one file entry: its path chunk followed by its content chunk. -/
def encodeEntry (e : FileEntry) : List Nat :=
  encodeChunk e.rel_path ++ encodeChunk e.content

/-- Modelled from the spec: packing the staging directory's files into a
single archive (`ZippedReportFolder.__exit__` in
`varats/experiment/experiment_util.py`, which is not part of the provided
sources); paths are stored relative to the staging root. -/
def zipArchive (entries : List FileEntry) : List Nat :=
  entries.length :: (entries.map encodeEntry).flatten

/-- Decode one length-prefixed chunk, returning it and the remaining bytes. -/
def decodeChunk (bs : List Nat) : Option (List Nat × List Nat) :=
  match bs with
  | [] => none
  | n :: rest =>
    if n ≤ rest.length then some (rest.take n, rest.drop n) else none

/-- Decode the given number of file entries from the archive body. -/
def decodeEntries : Nat → List Nat → Option (List FileEntry)
  | 0, [] => some []
  | 0, _ :: _ => none
  | Nat.succ k, bs =>
    match decodeChunk bs with
    | none => none
    | some (p, bs1) =>
      match decodeChunk bs1 with
      | none => none
      | some (c, bs2) =>
        match decodeEntries k bs2 with
        | none => none
        | some es => some (⟨p, c⟩ :: es)

/-- Extract all file entries of an archive. -/
def unpackArchive (bs : List Nat) : Option (List FileEntry) :=
  match bs with
  | [] => none
  | n :: rest => decodeEntries n rest

/-- Modelled from the spec: the scoped zipped-report-folder operation.  The
file system is a list of (path, bytes) pairs; on normal scope exit the files
written into the staging directory are archived at the target path. -/
def zippedReportFolderScope (fsys : List (List Nat × List Nat))
    (target : List Nat) (writes : List FileEntry) :
    List (List Nat × List Nat) :=
  (target, zipArchive writes) :: fsys

theorem decodeChunk_encodeChunk (l rest : List Nat) :
    decodeChunk (encodeChunk l ++ rest) = some (l, rest) := by
  show decodeChunk (l.length :: (l ++ rest)) = some (l, rest)
  rw [decodeChunk]
  rw [if_pos (by simp)]
  rw [List.take_left, List.drop_left]

theorem decodeEntries_encode (entries : List FileEntry) (rest : List Nat)
    (hrest : decodeEntries 0 rest = some []) :
    decodeEntries entries.length ((entries.map encodeEntry).flatten ++ rest)
      = some entries := by
  induction entries with
  | nil => simpa using hrest
  | cons e es ih =>
    rw [List.length_cons, List.map_cons, List.flatten_cons, List.append_assoc]
    rw [decodeEntries]
    rw [show encodeEntry e ++ ((es.map encodeEntry).flatten ++ rest)
        = encodeChunk e.rel_path
          ++ (encodeChunk e.content ++ ((es.map encodeEntry).flatten ++ rest)) by
      simp [encodeEntry]]
    simp only [decodeChunk_encodeChunk, ih]

theorem unpackArchive_zipArchive (entries : List FileEntry) :
    unpackArchive (zipArchive entries) = some entries := by
  rw [zipArchive, unpackArchive]
  have h := decodeEntries_encode entries [] rfl
  simpa using h

/-- C6: after a normal scope exit, the archive is present at the target path
and every file written into the staging directory is recovered from it, at
its path relative to the staging root, with byte-identical content. -/
theorem zipped_report_folder_preserves_files
    (fsys : List (List Nat × List Nat)) (target : List Nat)
    (writes : List FileEntry) (e : FileEntry) (he : e ∈ writes) :
    ∃ bytes, (target, bytes) ∈ zippedReportFolderScope fsys target writes
      ∧ ∃ entries, unpackArchive bytes = some entries ∧ e ∈ entries := by
  refine ⟨zipArchive writes, List.mem_cons_self _ _, writes, ?_, he⟩
  exact unpackArchive_zipArchive writes

/-- Witness for C6 at a concrete input: the file "foo.txt" (bytes of its
name) with content "content" written into an empty file system. -/
theorem zipped_report_folder_preserves_files_witness :
    ∃ bytes,
      ([70], bytes) ∈ zippedReportFolderScope [] [70]
          [⟨[102, 111, 111, 46, 116, 120, 116],
            [99, 111, 110, 116, 101, 110, 116]⟩]
      ∧ ∃ entries, unpackArchive bytes = some entries
          ∧ (⟨[102, 111, 111, 46, 116, 120, 116],
              [99, 111, 110, 116, 101, 110, 116]⟩ : FileEntry) ∈ entries :=
  zipped_report_folder_preserves_files [] [70]
    [⟨[102, 111, 111, 46, 116, 120, 116],
      [99, 111, 110, 116, 101, 110, 116]⟩]
    ⟨[102, 111, 111, 46, 116, 120, 116],
     [99, 111, 110, 116, 101, 110, 116]⟩ (by decide)

/-- A repository commit graph: its commit list, each commit's parents, and
resolution of symbolic references such as branch names to commits. -/
structure CommitGraph where
  commits : List (List Char)
  parentsOf : List Char → List (List Char)
  resolveRef : List Char → List Char

/-- Bounded ancestor search: walk up to the given number of parent edges. -/
def reachAux (g : CommitGraph) : Nat → List Char → List Char → Bool
  | 0, a, b => decide (a = b)
  | Nat.succ n, a, b =>
    decide (a = b) || (g.parentsOf b).any (fun p => reachAux g n a p)

/-- Commit-graph reachability: `a` is an ancestor of (or equal to) `b`. -/
def isAncestor (g : CommitGraph) (a b : List Char) : Bool :=
  reachAux g g.commits.length a b

/-- Kind of a binary produced by a project revision. -/
inductive BinaryType where
  | executable
  | sharedLibrary
  | staticLibrary
deriving DecidableEq

/-- An inclusive commit range with possibly symbolic endpoints. -/
structure RevisionRangeSpec where
  range_first : List Char
  range_last : List Char
deriving DecidableEq

/-- One registered binary of a revision-binary map. -/
structure BinarySpec where
  path : List Char
  name : List Char
  binary_type : BinaryType
  entry_point : List Char
  valid_in : Option RevisionRangeSpec
deriving DecidableEq

/-- Modelled from the spec: `RevisionBinaryMap` from
`varats/utils/git_util.py`, which is not part of the provided sources: a
repository graph plus the binaries registered via `specify_binary`, in
registration order. -/
structure RevisionBinaryMap where
  graph : CommitGraph
  binaries : List BinarySpec

/-- File stem of a path: its last slash-separated component. -/
def pathStem (path : List Char) : List Char :=
  (splitOnChar '/' path).getLastD []

/-- Modelled from the spec: register one binary; its name defaults to the
path's file stem unless overridden, and its validity range defaults to
always-valid. -/
def specify_binary (m : RevisionBinaryMap) (path : List Char) (ty : BinaryType)
    (only_valid_in : Option RevisionRangeSpec)
    (override_binary_name : Option (List Char))
    (override_entry_point : Option (List Char)) : RevisionBinaryMap :=
  ⟨m.graph,
   m.binaries ++
     [⟨path, override_binary_name.getD (pathStem path), ty,
       override_entry_point.getD path, only_valid_in⟩]⟩

/-- Decide whether a binary spec is visible at a revision: inside its
validity range by ancestor reachability, or always when no range is set. -/
def validAt (g : CommitGraph) (rev : List Char) (b : BinarySpec) : Bool :=
  match b.valid_in with
  | none => true
  | some rg =>
    isAncestor g (g.resolveRef rg.range_first) rev
      && isAncestor g rev (g.resolveRef rg.range_last)

/-- Modelled from the spec: lookup of a revision in the map, returning the
registered binaries valid at that revision in registration order. -/
def lookupRevision (m : RevisionBinaryMap) (rev : List Char) :
    List BinarySpec :=
  m.binaries.filter (validAt m.graph rev)

/-- C7: a binary registered with a validity range is returned for exactly the
revisions between the (resolved) range endpoints under commit-graph
reachability — in particular it is absent when the range start does not reach
the revision — while a binary registered without a range is returned for
every revision. -/
theorem revision_binary_map_validity (m : RevisionBinaryMap) (b : BinarySpec)
    (rev : List Char) (hb : b ∈ m.binaries) :
    (∀ rg, b.valid_in = some rg →
      (isAncestor m.graph (m.graph.resolveRef rg.range_first) rev = true →
        isAncestor m.graph rev (m.graph.resolveRef rg.range_last) = true →
        b ∈ lookupRevision m rev)
      ∧ (isAncestor m.graph (m.graph.resolveRef rg.range_first) rev = false →
          b ∉ lookupRevision m rev))
    ∧ (b.valid_in = none → b ∈ lookupRevision m rev) := by
  constructor
  · intro rg hrg
    constructor
    · intro h1 h2
      refine List.mem_filter.mpr ⟨hb, ?_⟩
      simp [validAt, hrg, h1, h2]
    · intro h1 hmem
      have hv := (List.mem_filter.mp hmem).2
      rw [validAt, hrg] at hv
      simp [h1] at hv
  · intro hnone
    refine List.mem_filter.mpr ⟨hb, ?_⟩
    simp [validAt, hnone]

/-- Witness for C7 on a three-commit chain c1 before c2 before c3 with
"master" resolving to c3: a binary ranged from c2 to master is found at c2
and c3 but not at c1, and an always-valid binary is found everywhere. -/
theorem revision_binary_map_validity_witness :
    (⟨['y'], ['y'], BinaryType.executable, ['y'],
        some ⟨['c', '2'], ['m']⟩⟩ : BinarySpec)
      ∈ lookupRevision
          ⟨⟨[['c', '1'], ['c', '2'], ['c', '3']],
            fun r =>
              if r = ['c', '3'] then [['c', '2']]
              else if r = ['c', '2'] then [['c', '1']]
              else [],
            fun r => if r = ['m'] then ['c', '3'] else r⟩,
           [⟨['x'], ['x'], BinaryType.executable, ['x'], none⟩,
            ⟨['y'], ['y'], BinaryType.executable, ['y'],
             some ⟨['c', '2'], ['m']⟩⟩]⟩
          ['c', '2']
    ∧ (⟨['y'], ['y'], BinaryType.executable, ['y'],
          some ⟨['c', '2'], ['m']⟩⟩ : BinarySpec)
        ∉ lookupRevision
            ⟨⟨[['c', '1'], ['c', '2'], ['c', '3']],
              fun r =>
                if r = ['c', '3'] then [['c', '2']]
                else if r = ['c', '2'] then [['c', '1']]
                else [],
              fun r => if r = ['m'] then ['c', '3'] else r⟩,
             [⟨['x'], ['x'], BinaryType.executable, ['x'], none⟩,
              ⟨['y'], ['y'], BinaryType.executable, ['y'],
               some ⟨['c', '2'], ['m']⟩⟩]⟩
            ['c', '1']
    ∧ (⟨['x'], ['x'], BinaryType.executable, ['x'], none⟩ : BinarySpec)
        ∈ lookupRevision
            ⟨⟨[['c', '1'], ['c', '2'], ['c', '3']],
              fun r =>
                if r = ['c', '3'] then [['c', '2']]
                else if r = ['c', '2'] then [['c', '1']]
                else [],
              fun r => if r = ['m'] then ['c', '3'] else r⟩,
             [⟨['x'], ['x'], BinaryType.executable, ['x'], none⟩,
              ⟨['y'], ['y'], BinaryType.executable, ['y'],
               some ⟨['c', '2'], ['m']⟩⟩]⟩
            ['c', '1'] := by
  refine ⟨?_, ?_, ?_⟩
  · exact ((revision_binary_map_validity _ _ ['c', '2'] (by decide)).1
      ⟨['c', '2'], ['m']⟩ rfl).1 (by decide) (by decide)
  · exact ((revision_binary_map_validity _ _ ['c', '1'] (by decide)).1
      ⟨['c', '2'], ['m']⟩ rfl).2 (by decide)
  · exact (revision_binary_map_validity _ _ ['c', '1'] (by decide)).2 rfl

/-- State of the result store: the set of existing result directories and a
counter from which fresh run uuids are generated. -/
structure ResultDirState where
  dirs : List (List Char)
  next_uuid : Nat
deriving DecidableEq

/-- Handle to a newly created result file: its backing directory and the
structured filename fields. -/
structure ResultFileHandle where
  base_path : List Char
  report_filename : ReportFilename
deriving DecidableEq

/-- Modelled from the spec: the shared core of
`create_new_success_result_filepath` and
`create_new_failed_result_filepath` in
`varats/experiment/experiment_util.py`, which is not part of the provided
sources.  It creates the backing result directory for the project (so the
directory exists on return), draws a fresh run uuid, and returns a handle
whose filename carries the given status and the passed config id (None when
no config id is passed). -/
def create_new_result_filepath (status : FileStatusExtension)
    (fs : ResultDirState)
    (result_root expShort repShort projName binName rev ftype : List Char)
    (config_id : Option Nat) : ResultDirState × ResultFileHandle :=
  let base := result_root ++ '/' :: projName
  let uuid := natToChars fs.next_uuid
  (⟨base :: fs.dirs, fs.next_uuid + 1⟩,
   ⟨base, ⟨expShort, repShort, projName, binName, rev, config_id, uuid,
           status, ftype⟩⟩)

/-- Modelled from the spec: create a new result path tagged SUCCESS. -/
def create_new_success_result_filepath (fs : ResultDirState)
    (result_root expShort repShort projName binName rev ftype : List Char)
    (config_id : Option Nat) : ResultDirState × ResultFileHandle :=
  create_new_result_filepath .success fs result_root expShort repShort
    projName binName rev ftype config_id

/-- Modelled from the spec: create a new result path tagged FAILED. -/
def create_new_failed_result_filepath (fs : ResultDirState)
    (result_root expShort repShort projName binName rev ftype : List Char)
    (config_id : Option Nat) : ResultDirState × ResultFileHandle :=
  create_new_result_filepath .failed fs result_root expShort repShort
    projName binName rev ftype config_id

/-- C9: the success and failed result-filepath constructors return a handle
whose backing directory exists in the post state, whose file status is
SUCCESS respectively FAILED, and whose config id is exactly the passed one
(None when none is passed). -/
theorem create_result_filepath_properties (fs : ResultDirState)
    (result_root expShort repShort projName binName rev ftype : List Char)
    (config_id : Option Nat) :
    ((create_new_success_result_filepath fs result_root expShort repShort
        projName binName rev ftype config_id).2.base_path
      ∈ (create_new_success_result_filepath fs result_root expShort repShort
          projName binName rev ftype config_id).1.dirs)
    ∧ (create_new_success_result_filepath fs result_root expShort repShort
        projName binName rev ftype config_id).2.report_filename.file_status
      = FileStatusExtension.success
    ∧ (create_new_success_result_filepath fs result_root expShort repShort
        projName binName rev ftype config_id).2.report_filename.config_id
      = config_id
    ∧ ((create_new_failed_result_filepath fs result_root expShort repShort
        projName binName rev ftype config_id).2.base_path
      ∈ (create_new_failed_result_filepath fs result_root expShort repShort
          projName binName rev ftype config_id).1.dirs)
    ∧ (create_new_failed_result_filepath fs result_root expShort repShort
        projName binName rev ftype config_id).2.report_filename.file_status
      = FileStatusExtension.failed
    ∧ (create_new_failed_result_filepath fs result_root expShort repShort
        projName binName rev ftype config_id).2.report_filename.config_id
      = config_id :=
  ⟨List.mem_cons_self _ _, rfl, rfl, List.mem_cons_self _ _, rfl, rfl⟩

/-- Event types of the Trace Event Format, from `TraceEventType` in
`varats-core/varats/report/tef_report.py`. -/
inductive TraceEventType where
  | durationEventBegin
  | durationEventEnd
  | completeEvent
  | instantEvent
  | counterEvent
  | asyncEventStart
  | asyncEventInstant
  | asyncEventEnd
  | flowEventStart
  | flowEventStep
  | flowEventEnd
  | sampleEvent
deriving DecidableEq

/-- One trace event, from `TraceEvent` in `tef_report.py`. -/
structure TraceEvent where
  name : String
  category : String
  event_type : TraceEventType
  timestamp : Int
  pid : Int
  tid : Int
deriving DecidableEq

/-- One parsed TEF report, from `TEFReport` in `tef_report.py`. -/
structure TEFReport where
  display_time_unit : String
  trace_events : List TraceEvent
deriving DecidableEq

/-- One step of the begin/end scan of `TEFReportAggregate.__init__`: a Base
begin event overwrites the start time, a Base end event overwrites the end
time, any other event type only produces a warning. -/
def baseTimesStep (acc : Option Int × Option Int) (e : TraceEvent) :
    Option Int × Option Int :=
  if e.event_type = TraceEventType.durationEventBegin then
    (some e.timestamp, acc.2)
  else if e.event_type = TraceEventType.durationEventEnd then
    (acc.1, some e.timestamp)
  else acc

/-- Start and end timestamps found among a report's "Base" events. -/
def baseTimes (r : TEFReport) : Option Int × Option Int :=
  (r.trace_events.filter (fun e => decide (e.name = "Base"))).foldl
    baseTimesStep (none, none)

/-- The wall clock time one report contributes, from the per-report body of
`TEFReportAggregate.__init__`: none when a begin or end event is missing or
the display time unit is unrecognized. -/
def wallClockTime (r : TEFReport) : Option ℚ :=
  match (baseTimes r).1, (baseTimes r).2 with
  | some time_start, some time_end =>
    if r.display_time_unit = "ms" then
      some (((time_end - time_start : Int) : ℚ) / 10 ^ 6)
    else if r.display_time_unit = "ns" then
      some (((time_end - time_start : Int) : ℚ) / 10 ^ 9)
    else none
  | _, _ => none

/-- The aggregate's wall clock times, from `TEFReportAggregate.__init__`: one
entry per contributing report, and the single entry 0 when no report
contributes. -/
def wall_clock_times (reports : List TEFReport) : List ℚ :=
  let l := reports.filterMap wallClockTime
  if l = [] then [0] else l

theorem foldl_baseTimesStep_fst (l : List TraceEvent) :
    ∀ acc : Option Int × Option Int,
    ((l.foldl baseTimesStep acc).1).isSome
      = (acc.1.isSome
          || l.any (fun e =>
              decide (e.event_type = TraceEventType.durationEventBegin))) := by
  induction l with
  | nil => intro acc; simp
  | cons e rest ih =>
    intro acc
    rw [List.foldl_cons, List.any_cons, ih]
    by_cases hb : e.event_type = TraceEventType.durationEventBegin
    · simp [baseTimesStep, hb]
    · by_cases hend : e.event_type = TraceEventType.durationEventEnd
      · simp [baseTimesStep, hb, hend, Bool.or_assoc]
      · simp [baseTimesStep, hb, hend, Bool.or_assoc]

theorem foldl_baseTimesStep_snd (l : List TraceEvent) :
    ∀ acc : Option Int × Option Int,
    ((l.foldl baseTimesStep acc).2).isSome
      = (acc.2.isSome
          || l.any (fun e =>
              decide (e.event_type = TraceEventType.durationEventEnd))) := by
  induction l with
  | nil => intro acc; simp
  | cons e rest ih =>
    intro acc
    rw [List.foldl_cons, List.any_cons, ih]
    by_cases hb : e.event_type = TraceEventType.durationEventBegin
    · have hne : ¬e.event_type = TraceEventType.durationEventEnd := by
        rw [hb]; intro h; exact absurd h (by decide)
      simp [baseTimesStep, hb, hne, Bool.or_assoc]
    · by_cases hend : e.event_type = TraceEventType.durationEventEnd
      · simp [baseTimesStep, hb, hend]
      · simp [baseTimesStep, hb, hend, Bool.or_assoc]

theorem baseTimes_fst_isSome (r : TEFReport) :
    ((baseTimes r).1).isSome
      = decide (∃ e ∈ r.trace_events,
          e.name = "Base"
            ∧ e.event_type = TraceEventType.durationEventBegin) := by
  rw [baseTimes, foldl_baseTimesStep_fst]
  simp only [Option.isSome_none, Bool.false_or]
  rcases hdec : decide (∃ e ∈ r.trace_events,
      e.name = "Base" ∧ e.event_type = TraceEventType.durationEventBegin) with _ | _
  · rw [List.any_eq_false]
    intro e hmem
    have hex := of_decide_eq_false hdec
    have hbase := (List.mem_filter.mp hmem).2
    simp only [decide_eq_true_eq]
    intro htype
    exact hex ⟨e, (List.mem_filter.mp hmem).1,
      of_decide_eq_true hbase, htype⟩
  · rcases of_decide_eq_true hdec with ⟨e, hmem, hname, htype⟩
    rw [List.any_eq_true]
    exact ⟨e, List.mem_filter.mpr ⟨hmem, decide_eq_true hname⟩,
      decide_eq_true htype⟩

theorem baseTimes_snd_isSome (r : TEFReport) :
    ((baseTimes r).2).isSome
      = decide (∃ e ∈ r.trace_events,
          e.name = "Base"
            ∧ e.event_type = TraceEventType.durationEventEnd) := by
  rw [baseTimes, foldl_baseTimesStep_snd]
  simp only [Option.isSome_none, Bool.false_or]
  rcases hdec : decide (∃ e ∈ r.trace_events,
      e.name = "Base" ∧ e.event_type = TraceEventType.durationEventEnd) with _ | _
  · rw [List.any_eq_false]
    intro e hmem
    have hex := of_decide_eq_false hdec
    have hbase := (List.mem_filter.mp hmem).2
    simp only [decide_eq_true_eq]
    intro htype
    exact hex ⟨e, (List.mem_filter.mp hmem).1,
      of_decide_eq_true hbase, htype⟩
  · rcases of_decide_eq_true hdec with ⟨e, hmem, hname, htype⟩
    rw [List.any_eq_true]
    exact ⟨e, List.mem_filter.mpr ⟨hmem, decide_eq_true hname⟩,
      decide_eq_true htype⟩

/-- C10: the aggregate's wall clock time list is never empty; a report with a
Base begin event, a Base end event, and a recognized display time unit (ms or
ns) contributes one execution time; a report missing a begin or end event or
with an unrecognized unit is skipped; and when no report contributes the list
is exactly [0]. -/
theorem tef_wall_clock_times_spec (reports : List TEFReport) (r : TEFReport) :
    wall_clock_times reports ≠ []
    ∧ ((∃ e ∈ r.trace_events,
          e.name = "Base"
            ∧ e.event_type = TraceEventType.durationEventBegin) →
        (∃ e ∈ r.trace_events,
          e.name = "Base"
            ∧ e.event_type = TraceEventType.durationEventEnd) →
        (r.display_time_unit = "ms" ∨ r.display_time_unit = "ns") →
        (wallClockTime r).isSome = true)
    ∧ (((¬∃ e ∈ r.trace_events,
          e.name = "Base"
            ∧ e.event_type = TraceEventType.durationEventBegin)
        ∨ (¬∃ e ∈ r.trace_events,
            e.name = "Base"
              ∧ e.event_type = TraceEventType.durationEventEnd)
        ∨ (r.display_time_unit ≠ "ms" ∧ r.display_time_unit ≠ "ns")) →
        wallClockTime r = none)
    ∧ ((∀ s ∈ reports, wallClockTime s = none) →
        wall_clock_times reports = [0])
    ∧ (reports.filterMap wallClockTime ≠ [] →
        wall_clock_times reports = reports.filterMap wallClockTime) := by
  refine ⟨?_, ?_, ?_, ?_, ?_⟩
  · rw [wall_clock_times]
    by_cases hl : reports.filterMap wallClockTime = [] <;> simp [hl]
  · intro hbegin hend hunit
    have h1 : (baseTimes r).1.isSome = true := by
      rw [baseTimes_fst_isSome]; exact decide_eq_true hbegin
    have h2 : (baseTimes r).2.isSome = true := by
      rw [baseTimes_snd_isSome]; exact decide_eq_true hend
    rcases Option.isSome_iff_exists.mp h1 with ⟨ts, hts⟩
    rcases Option.isSome_iff_exists.mp h2 with ⟨te, hte⟩
    rw [wallClockTime, hts, hte]
    rcases hunit with hu | hu <;> simp [hu]
  · intro hskip
    rcases hskip with hnb | hne | ⟨hu1, hu2⟩
    · have h1 : (baseTimes r).1 = none := by
        rw [← Option.not_isSome_iff_eq_none, baseTimes_fst_isSome]
        simpa using hnb
      rw [wallClockTime, h1]
    · have h2 : (baseTimes r).2 = none := by
        rw [← Option.not_isSome_iff_eq_none, baseTimes_snd_isSome]
        simpa using hne
      rw [wallClockTime, h2]
      rcases hfst : (baseTimes r).1 with _ | ts <;> rfl
    · rw [wallClockTime]
      rcases (baseTimes r).1 with _ | ts
      · rfl
      · rcases (baseTimes r).2 with _ | te
        · rfl
        · simp [hu1, hu2]
  · intro hall
    have hl : reports.filterMap wallClockTime = [] :=
      List.filterMap_eq_nil_iff.mpr hall
    simp [wall_clock_times, hl]
  · intro hl
    simp [wall_clock_times, hl]

/-- Witness for C10 at concrete inputs: a report with a matched Base pair in
milliseconds contributes; a report with an unrecognized unit is skipped; the
empty aggregate yields [0]. -/
theorem tef_wall_clock_times_spec_witness :
    (wallClockTime
        ⟨"ms",
         [⟨"Base", "", TraceEventType.durationEventBegin, 0, 0, 0⟩,
          ⟨"Base", "", TraceEventType.durationEventEnd, 5, 0, 0⟩]⟩).isSome
      = true
    ∧ wallClockTime ⟨"sec", []⟩ = none
    ∧ wall_clock_times [⟨"sec", []⟩] = [0]
    ∧ wall_clock_times [] ≠ [] := by
  refine ⟨?_, ?_, ?_, ?_⟩
  · exact (tef_wall_clock_times_spec []
      ⟨"ms",
       [⟨"Base", "", TraceEventType.durationEventBegin, 0, 0, 0⟩,
        ⟨"Base", "", TraceEventType.durationEventEnd, 5, 0, 0⟩]⟩).2.1
      (by decide) (by decide) (by decide)
  · exact (tef_wall_clock_times_spec [] ⟨"sec", []⟩).2.2.1
      (Or.inl (by decide))
  · exact (tef_wall_clock_times_spec [⟨"sec", []⟩] ⟨"sec", []⟩).2.2.2.1
      (by
        intro s hs
        have hs' : s = (⟨"sec", []⟩ : TEFReport) := by
          simpa using hs
        subst hs'
        exact (tef_wall_clock_times_spec [] ⟨"sec", []⟩).2.2.1
          (Or.inl (by decide)))
  · exact (tef_wall_clock_times_spec [] ⟨"sec", []⟩).1

end Vara
